import Mathlib

/-!
Verification of the frida devkit bundler (releng/devkit.py).

The development shallowly embeds the parts of releng/devkit.py that the
checked properties are about:

* the header flattener (INCLUDE_PATTERN, ingest_header, lines 22 and 155-172),
* the manual archive merge branch of generate_library_unix (lines 332-351),
* the symbol isolation planner (get_symbols, get_thirdparty_symbol_names,
  get_thirdparty_symbol_mappings, extract_public_thirdparty_symbol_mappings,
  lines 367-395),
* the header assembly of generate_header (lines 104-153, unix branch),
* the orchestration order of generate_devkit (lines 31-57, unix branch).

Python strings are modelled as Lean String values; operations that the
source performs on Python strings (strip, startswith, endswith, split,
in) are given explicit character-list translations so that they compute
and so that their semantics are the ones of the Python operations.
Lines read from a header file keep their trailing newline character,
exactly as Python file iteration yields them.
-/

/-- Python str.startswith: the first string starts with the second. -/
def py_startsWith (s p : String) : Bool :=
  p.data.isPrefixOf s.data

/-- Python str.endswith: the first string ends with the second. -/
def py_endsWith (s p : String) : Bool :=
  p.data.isSuffixOf s.data

/-- Python whitespace for str.strip and the regex class of whitespace:
space, tab, newline, carriage return, vertical tab, form feed. -/
def isPyWs (c : Char) : Bool :=
  c == ' ' || c == '\t' || c == '\n' || c == '\r' || c == '\x0b' || c == '\x0c'

/-- Python str.strip: drop leading and trailing whitespace. -/
def pyStrip (l : List Char) : List Char :=
  ((l.dropWhile isPyWs).reverse.dropWhile isPyWs).reverse

/-- Python str.split with separator a single space: splits at every space
character and keeps empty pieces, as the source does on nm output lines. -/
def py_split_space : List Char → List (List Char)
  | [] => [[]]
  | ' ' :: rest => [] :: py_split_space rest
  | c :: rest =>
    match py_split_space rest with
    | t :: ts => (c :: t) :: ts
    | [] => [[c]]

/-- Python substring test, the in operator on strings. -/
def listContainsSub (needle : List Char) : List Char → Bool
  | [] => needle.isEmpty
  | c :: rest => needle.isPrefixOf (c :: rest) || listContainsSub needle rest

/-- The regex INCLUDE_PATTERN applied with re.match to the stripped line
(devkit.py line 22 and 158).  The pattern requires, at the start of the
stripped line: the literal characters of an include directive, one or more
whitespace characters, an opening angle bracket or double quote, then a
shortest run of non-newline characters up to a closing angle bracket or
double quote; the captured group is that run.  Anything may follow. -/
def parseIncludeChars (l : List Char) : Option (List Char) :=
  let s := pyStrip l
  if "#include".data.isPrefixOf s then
    let r := s.drop 8
    match r with
    | [] => none
    | c :: _ =>
      if isPyWs c then
        match r.dropWhile isPyWs with
        | d :: tail =>
          if d == '<' || d == '"' then
            let body := tail.takeWhile (fun ch => !(ch == '>' || ch == '"' || ch == '\n'))
            match tail.drop body.length with
            | stop :: _ => if stop == '>' || stop == '"' then some body else none
            | [] => none
          else none
        | [] => none
      else none
  else none

/-- The search loop of ingest_header (devkit.py lines 162-168): the first
entry of the dependency universe whose path ends with a slash followed by
the included name, using the case-sensitive Python endswith. -/
def resolveInclude (univ : List String) (name : String) : Option String :=
  univ.find? (fun u => py_endsWith u ("/" ++ name))

/-- Number of universe entries not yet processed; the termination measure
of the flattening recursion. -/
def notInCount (univ processed : List String) : Nat :=
  (univ.toFinset \ processed.toFinset).card

theorem notInCount_subset (univ p1 p2 : List String) (h : ∀ x, x ∈ p1 → x ∈ p2) :
    univ.toFinset \ p2.toFinset ⊆ univ.toFinset \ p1.toFinset := by
  intro x hx
  simp only [Finset.mem_sdiff, List.mem_toFinset] at hx ⊢
  exact ⟨hx.1, fun hm => hx.2 (h x hm)⟩

theorem notInCount_le (univ p1 p2 : List String) (h : ∀ x, x ∈ p1 → x ∈ p2) :
    notInCount univ p2 ≤ notInCount univ p1 :=
  Finset.card_le_card (notInCount_subset univ p1 p2 h)

theorem notInCount_lt (univ p1 p2 : List String) (h : ∀ x, x ∈ p1 → x ∈ p2)
    (u : String) (hu : u ∈ univ) (hu1 : ¬ u ∈ p1) (hu2 : u ∈ p2) :
    notInCount univ p2 < notInCount univ p1 := by
  apply Finset.card_lt_card
  rw [Finset.ssubset_iff_of_subset (notInCount_subset univ p1 p2 h)]
  refine ⟨u, ?_, ?_⟩
  · simp only [Finset.mem_sdiff, List.mem_toFinset]
    exact ⟨hu, hu1⟩
  · simp only [Finset.mem_sdiff, List.mem_toFinset]
    exact fun hc => hc.2 hu2

/-- The body of ingest_header (devkit.py lines 155-172), processing a list
of pending lines against the dependency universe.  The state is the set of
already-processed header paths; the function returns the produced output
lines together with the list of headers newly added to the processed set,
in the order in which their ingestion started (the processed set after the
call is that list prepended to the incoming one).  A line that matches the
include pattern and resolves to a universe entry is dropped; if the entry
was not processed yet it is marked processed and its file content is
inlined at that point, depth first, before the remaining lines continue.
All other lines are emitted verbatim. -/
def ingestLines (fs : String → List String) (univ : List String) :
    List String → List String → List String × List String
  | [], _ => ([], [])
  | line :: rest, processed =>
    match parseIncludeChars line.data with
    | none =>
      let r := ingestLines fs univ rest processed
      (line :: r.1, r.2)
    | some nm =>
      match h2 : resolveInclude univ (String.mk nm) with
      | none =>
        let r := ingestLines fs univ rest processed
        (line :: r.1, r.2)
      | some u =>
        if hu : u ∈ processed then
          ingestLines fs univ rest processed
        else
          let r1 := ingestLines fs univ (fs u) (u :: processed)
          let r2 := ingestLines fs univ rest (r1.2 ++ u :: processed)
          (r1.1 ++ r2.1, u :: r1.2 ++ r2.2)
termination_by lines processed => (notInCount univ processed, lines.length)
decreasing_by
  all_goals try (apply Prod.Lex.right; simp; done)
  all_goals apply Prod.Lex.left
  · exact notInCount_lt univ processed _ (fun x hx => List.mem_cons_of_mem _ hx) u
      (List.mem_of_find?_eq_some h2) hu (List.mem_cons_self u processed)
  · exact notInCount_lt univ processed _
      (fun x hx => List.mem_append_right _ (List.mem_cons_of_mem _ hx)) u
      (List.mem_of_find?_eq_some h2) hu
      (List.mem_append_right _ (List.mem_cons_self u processed))

theorem ingestLines_nil (fs : String → List String) (univ processed : List String) :
    ingestLines fs univ [] processed = ([], []) := by
  rw [ingestLines]

theorem ingestLines_cons_plain (fs : String → List String) (univ : List String)
    (line : String) (rest processed : List String)
    (hp : parseIncludeChars line.data = none) :
    ingestLines fs univ (line :: rest) processed =
      (line :: (ingestLines fs univ rest processed).1,
        (ingestLines fs univ rest processed).2) := by
  rw [ingestLines]
  simp [hp]

theorem ingestLines_cons_external (fs : String → List String) (univ : List String)
    (line : String) (rest processed : List String) (nm : List Char)
    (hp : parseIncludeChars line.data = some nm)
    (hr : resolveInclude univ (String.mk nm) = none) :
    ingestLines fs univ (line :: rest) processed =
      (line :: (ingestLines fs univ rest processed).1,
        (ingestLines fs univ rest processed).2) := by
  rw [ingestLines]
  simp only [hp]
  split
  · rfl
  · rename_i u heq
    rw [hr] at heq
    cases heq

theorem ingestLines_cons_dup (fs : String → List String) (univ : List String)
    (line : String) (rest processed : List String) (nm : List Char) (u : String)
    (hp : parseIncludeChars line.data = some nm)
    (hr : resolveInclude univ (String.mk nm) = some u)
    (hmem : u ∈ processed) :
    ingestLines fs univ (line :: rest) processed =
      ingestLines fs univ rest processed := by
  rw [ingestLines]
  simp only [hp]
  split
  · rename_i heq
    rw [hr] at heq
    cases heq
  · rename_i u2 heq
    rw [hr] at heq
    cases heq
    rw [dif_pos hmem]

theorem ingestLines_cons_inline (fs : String → List String) (univ : List String)
    (line : String) (rest processed : List String) (nm : List Char) (u : String)
    (hp : parseIncludeChars line.data = some nm)
    (hr : resolveInclude univ (String.mk nm) = some u)
    (hmem : ¬ u ∈ processed) :
    ingestLines fs univ (line :: rest) processed =
      ((ingestLines fs univ (fs u) (u :: processed)).1 ++
        (ingestLines fs univ rest
          ((ingestLines fs univ (fs u) (u :: processed)).2 ++ u :: processed)).1,
       u :: (ingestLines fs univ (fs u) (u :: processed)).2 ++
        (ingestLines fs univ rest
          ((ingestLines fs univ (fs u) (u :: processed)).2 ++ u :: processed)).2) := by
  rw [ingestLines]
  simp only [hp]
  split
  · rename_i heq
    rw [hr] at heq
    cases heq
  · rename_i u2 heq
    rw [hr] at heq
    cases heq
    rw [dif_neg hmem]

/-- A line of a header resolves to a universe entry: it matches the include
pattern and the search loop finds that entry. -/
def lineResolves (univ : List String) (line : String) (u : String) : Prop :=
  ∃ nm, parseIncludeChars line.data = some nm ∧ resolveInclude univ (String.mk nm) = some u

theorem ingest_invariant (fs : String → List String) (univ : List String)
    (lines processed : List String) :
    ((ingestLines fs univ lines processed).2.Nodup) ∧
    (∀ u ∈ (ingestLines fs univ lines processed).2, ¬ u ∈ processed) ∧
    (∀ line ∈ lines, ∀ u, lineResolves univ line u →
      u ∈ (ingestLines fs univ lines processed).2 ∨ u ∈ processed) ∧
    (∀ h ∈ (ingestLines fs univ lines processed).2, ∀ line ∈ fs h, ∀ u,
      lineResolves univ line u →
      u ∈ (ingestLines fs univ lines processed).2 ∨ u ∈ processed) := by
  induction lines, processed using ingestLines.induct fs univ with
  | case1 processed =>
    rw [ingestLines_nil]
    simp
  | case2 line rest processed hp ih =>
    rw [ingestLines_cons_plain fs univ line rest processed hp]
    refine ⟨ih.1, ih.2.1, ?_, ih.2.2.2⟩
    intro l hl u hres
    rcases List.mem_cons.mp hl with rfl | hmem
    · rcases hres with ⟨nm, hnm, _⟩
      rw [hp] at hnm
      cases hnm
    · exact ih.2.2.1 l hmem u hres
  | case3 line rest processed nm hp hr ih =>
    rw [ingestLines_cons_external fs univ line rest processed nm hp hr]
    refine ⟨ih.1, ih.2.1, ?_, ih.2.2.2⟩
    intro l hl u hres
    rcases List.mem_cons.mp hl with rfl | hmem
    · rcases hres with ⟨nm2, hnm2, hres2⟩
      rw [hp] at hnm2
      cases hnm2
      rw [hr] at hres2
      cases hres2
    · exact ih.2.2.1 l hmem u hres
  | case4 line rest processed nm hp u hr hu ih =>
    rw [ingestLines_cons_dup fs univ line rest processed nm u hp hr hu]
    refine ⟨ih.1, ih.2.1, ?_, ih.2.2.2⟩
    intro l hl u2 hres
    rcases List.mem_cons.mp hl with rfl | hmem
    · rcases hres with ⟨nm2, hnm2, hres2⟩
      rw [hp] at hnm2
      cases hnm2
      rw [hr] at hres2
      cases hres2
      exact Or.inr hu
    · exact ih.2.2.1 l hmem u2 hres
  | case5 line rest processed nm hp u hr hu r1 ih1 ih2 =>
    rw [ingestLines_cons_inline fs univ line rest processed nm u hp hr hu]
    have hfresh1 : ∀ x ∈ (ingestLines fs univ (fs u) (u :: processed)).2,
        ¬ x ∈ u :: processed := ih1.2.1
    have hfresh2 : ∀ x ∈ (ingestLines fs univ rest
        ((ingestLines fs univ (fs u) (u :: processed)).2 ++ u :: processed)).2,
        ¬ x ∈ (ingestLines fs univ (fs u) (u :: processed)).2 ++ u :: processed := ih2.2.1
    constructor
    · -- the trace of newly ingested headers has no duplicates
      refine List.Nodup.cons ?_ (List.Nodup.append ih1.1 ih2.1 ?_)
      · intro hmem
        rcases List.mem_append.mp hmem with h1 | h1
        · exact hfresh1 u h1 (List.mem_cons_self u processed)
        · exact hfresh2 u h1 (List.mem_append_right _ (List.mem_cons_self u processed))
      · intro x hx1 hx2
        exact hfresh2 x hx2 (List.mem_append_left _ hx1)
    constructor
    · -- every newly ingested header was not already processed
      intro x hx
      rcases List.mem_cons.mp hx with rfl | hx2
      · exact hu
      · rcases List.mem_append.mp hx2 with h1 | h1
        · exact fun hc => hfresh1 x h1 (List.mem_cons_of_mem _ hc)
        · exact fun hc => hfresh2 x h1
            (List.mem_append_right _ (List.mem_cons_of_mem _ hc))
    have translate : ∀ u2, u2 ∈ (ingestLines fs univ rest
        ((ingestLines fs univ (fs u) (u :: processed)).2 ++ u :: processed)).2 ∨
        u2 ∈ (ingestLines fs univ (fs u) (u :: processed)).2 ++ u :: processed →
        (u2 ∈ u :: (ingestLines fs univ (fs u) (u :: processed)).2 ++
          (ingestLines fs univ rest
            ((ingestLines fs univ (fs u) (u :: processed)).2 ++ u :: processed)).2 ∨
         u2 ∈ processed) := by
      intro u2 hc
      rcases hc with h1 | h1
      · exact Or.inl (List.mem_cons_of_mem _ (List.mem_append_right _ h1))
      · rcases List.mem_append.mp h1 with h3 | h3
        · exact Or.inl (List.mem_cons_of_mem _ (List.mem_append_left _ h3))
        · rcases List.mem_cons.mp h3 with rfl | h4
          · exact Or.inl (List.mem_cons_self _ _)
          · exact Or.inr h4
    have translate1 : ∀ u2, u2 ∈ (ingestLines fs univ (fs u) (u :: processed)).2 ∨
        u2 ∈ u :: processed →
        (u2 ∈ u :: (ingestLines fs univ (fs u) (u :: processed)).2 ++
          (ingestLines fs univ rest
            ((ingestLines fs univ (fs u) (u :: processed)).2 ++ u :: processed)).2 ∨
         u2 ∈ processed) := by
      intro u2 hc
      rcases hc with h1 | h1
      · exact Or.inl (List.mem_cons_of_mem _ (List.mem_append_left _ h1))
      · rcases List.mem_cons.mp h1 with rfl | h4
        · exact Or.inl (List.mem_cons_self _ _)
        · exact Or.inr h4
    constructor
    · -- every include of the pending lines that resolves is covered
      intro l hl u2 hres
      rcases List.mem_cons.mp hl with rfl | hmem
      · rcases hres with ⟨nm2, hnm2, hres2⟩
        rw [hp] at hnm2
        cases hnm2
        rw [hr] at hres2
        cases hres2
        exact Or.inl (List.mem_cons_self _ _)
      · exact translate u2 (ih2.2.2.1 l hmem u2 hres)
    · -- every include inside an ingested header that resolves is covered
      intro x hx l hl u2 hres
      rcases List.mem_cons.mp hx with rfl | hx2
      · exact translate1 u2 (ih1.2.2.1 l hl u2 hres)
      · rcases List.mem_append.mp hx2 with h1 | h1
        · exact translate1 u2 (ih1.2.2.2 x h1 l hl u2 hres)
        · exact translate u2 (ih2.2.2.2 x h1 l hl u2 hres)

/-- Concrete dependency scenario from the spec: umbrella a.h includes b.h
then c.h, and b.h includes c.h; all three are in the universe. -/
def fs_abc : String → List String := fun p =>
  if p = "/frida/a.h" then ["#include \"b.h\"\n", "#include \"c.h\"\n", "int a;\n"]
  else if p = "/frida/b.h" then ["#include \"c.h\"\n", "int b;\n"]
  else if p = "/frida/c.h" then ["int c;\n"]
  else []

def univ_abc : List String := ["/frida/a.h", "/frida/b.h", "/frida/c.h"]

theorem ingest_abc_eval :
    ingestLines fs_abc univ_abc (fs_abc "/frida/a.h") ["/frida/a.h"] =
      (["int c;\n", "int b;\n", "int a;\n"], ["/frida/b.h", "/frida/c.h"]) := by
  have hfsa : fs_abc "/frida/a.h" =
      ["#include \"b.h\"\n", "#include \"c.h\"\n", "int a;\n"] := rfl
  have hfsb : fs_abc "/frida/b.h" = ["#include \"c.h\"\n", "int b;\n"] := rfl
  have hfsc : fs_abc "/frida/c.h" = ["int c;\n"] := rfl
  have hC : ingestLines fs_abc univ_abc ["int c;\n"]
      ["/frida/c.h", "/frida/b.h", "/frida/a.h"] = (["int c;\n"], []) := by
    rw [ingestLines_cons_plain _ _ _ _ _ (by decide), ingestLines_nil]
  have hB : ingestLines fs_abc univ_abc (fs_abc "/frida/b.h")
      ["/frida/b.h", "/frida/a.h"] = (["int c;\n", "int b;\n"], ["/frida/c.h"]) := by
    rw [hfsb]
    rw [ingestLines_cons_inline _ _ _ _ _ "c.h".data "/frida/c.h"
      (by decide) (by decide) (by decide)]
    rw [hfsc, hC]
    simp only [List.nil_append]
    rw [ingestLines_cons_plain _ _ _ _ _ (by decide), ingestLines_nil]
    simp
  rw [hfsa]
  rw [ingestLines_cons_inline _ _ _ _ _ "b.h".data "/frida/b.h"
    (by decide) (by decide) (by decide)]
  rw [hB]
  simp only [List.cons_append, List.nil_append]
  rw [ingestLines_cons_dup _ _ _ _ _ "c.h".data "/frida/c.h"
    (by decide) (by decide) (by decide)]
  try rw [ingestLines_cons_plain _ _ _ _ _ (by decide), ingestLines_nil]
  try simp

theorem ingest_verbatim (fs : String → List String) (univ lines processed : List String)
    (h : ∀ line ∈ lines, ∀ nm, parseIncludeChars line.data = some nm →
      resolveInclude univ (String.mk nm) = none) :
    ingestLines fs univ lines processed = (lines, []) := by
  induction lines with
  | nil => exact ingestLines_nil fs univ processed
  | cons line rest ih =>
    have hrest : ∀ l ∈ rest, ∀ nm, parseIncludeChars l.data = some nm →
        resolveInclude univ (String.mk nm) = none :=
      fun l hl => h l (List.mem_cons_of_mem _ hl)
    cases hp : parseIncludeChars line.data with
    | none =>
      rw [ingestLines_cons_plain fs univ line rest processed hp, ih hrest]
    | some nm =>
      have hr := h line (List.mem_cons_self _ _) nm hp
      rw [ingestLines_cons_external fs univ line rest processed nm hp hr, ih hrest]

/-- Lexicographic comparison of strings by code point, the ordering used by
the Python list sort on symbol names. -/
def charListLe : List Char → List Char → Bool
  | [], _ => true
  | _ :: _, [] => false
  | a :: as, b :: bs => if a < b then true else if a = b then charListLe as bs else false

def insertSorted (s : String) : List String → List String
  | [] => [s]
  | x :: rest =>
    if charListLe s.data x.data then s :: x :: rest else x :: insertSorted s rest

/-- Ascending sort of symbol names.  The source sorts the deduplicated name
list in place; on a list of distinct names every comparison sort produces
the same output, so insertion sort is an exact model of it. -/
def sortStrings : List String → List String
  | [] => []
  | x :: rest => insertSorted x (sortStrings rest)

/-- One line of nm output, parsed as in get_symbols (devkit.py lines 388-393):
split on single spaces, skip lines with fewer than three tokens, and take the
last two tokens as kind and name. -/
def symbol_of_line (line : String) : Option (String × String) :=
  let tokens := py_split_space line.data
  match tokens.reverse with
  | nm :: kd :: _ :: _ => some (String.mk kd, String.mk nm)
  | _ => none

/-- get_symbols (devkit.py lines 383-395) applied to the decoded nm output
lines: the list of (kind, name) records in line order. -/
def get_symbols (nm_lines : List String) : List (String × String) :=
  nm_lines.filterMap symbol_of_line

/-- The symbol kinds treated as visible definitions (devkit.py line 375). -/
def visible_kinds : List String := ["T", "D", "B", "R", "C"]

/-- The product's own symbol name patterns (devkit.py line 378). -/
def frida_prefixes : List String := ["frida", "_frida", "gum", "_gum"]

/-- The allow-list of third-party library name patterns whose renames are
public (devkit.py line 368). -/
def public_prefixes : List String :=
  ["g_", "glib_", "gobject_", "gio_", "gee_", "json_", "cs_"]

/-- get_thirdparty_symbol_names (devkit.py lines 374-381): keep names of
visible kinds, deduplicate, sort, and drop names carrying one of the
product's own patterns. -/
def get_thirdparty_symbol_names (nm_lines : List String) : List String :=
  let visible_names :=
    ((get_symbols nm_lines).filter (fun kn => decide (kn.1 ∈ visible_kinds))).map
      (fun kn => kn.2)
  let sorted := sortStrings visible_names.dedup
  sorted.filter (fun n => !(frida_prefixes.any (fun p => py_startsWith n p)))

/-- get_thirdparty_symbol_mappings (devkit.py lines 371-372). -/
def get_thirdparty_symbol_mappings (nm_lines : List String) : List (String × String) :=
  (get_thirdparty_symbol_names nm_lines).map (fun n => (n, "_frida_" ++ n))

/-- extract_public_thirdparty_symbol_mappings (devkit.py lines 367-369). -/
def extract_public_thirdparty_symbol_mappings (mappings : List (String × String)) :
    List (String × String) :=
  mappings.filter (fun om => public_prefixes.any (fun p => py_startsWith om.1 p))

theorem mem_insertSorted (s a : String) (l : List String) :
    a ∈ insertSorted s l ↔ a = s ∨ a ∈ l := by
  induction l with
  | nil => simp [insertSorted]
  | cons x rest ih =>
    rw [insertSorted]
    split
    · simp
    · simp only [List.mem_cons, ih]
      tauto

theorem mem_sortStrings (a : String) (l : List String) :
    a ∈ sortStrings l ↔ a ∈ l := by
  induction l with
  | nil => simp [sortStrings]
  | cons x rest ih =>
    rw [sortStrings, mem_insertSorted]
    simp [ih]

theorem py_startsWith_of_longer (s : String) (p q : String)
    (hpq : p.data.IsPrefix q.data) (h : py_startsWith s q = true) :
    py_startsWith s p = true := by
  rw [py_startsWith, List.isPrefixOf_iff_prefix] at h ⊢
  exact hpq.trans h

/-- An object member of a static archive: its file name and its content. -/
structure ArMember where
  name : String
  content : String
deriving DecidableEq

def maxLen (l : List String) : Nat :=
  l.foldr (fun s m => max s.length m) 0

theorem length_le_maxLen (s : String) (l : List String) (h : s ∈ l) :
    s.length ≤ maxLen l := by
  induction l with
  | nil => cases h
  | cons a t ih =>
    rcases List.mem_cons.mp h with rfl | hm
    · exact le_max_left _ _
    · exact le_trans (ih hm) (le_max_right _ _)

/-- The collision loop of the manual merge (devkit.py lines 342-343): while
the name is taken, prepend an underscore. -/
def resolve_object_name (taken : List String) (name : String) : String :=
  if h : name ∈ taken then resolve_object_name taken ("_" ++ name) else name
termination_by maxLen taken + 1 - name.length
decreasing_by
  have h1 : name.length ≤ maxLen taken := length_le_maxLen name taken h
  have h2 : ("_" ++ name).length = "_".length + name.length :=
    String.length_append _ _
  have h3 : "_".length = 1 := rfl
  omega

theorem resolve_object_name_notMem (taken : List String) (name : String) :
    ¬ resolve_object_name taken name ∈ taken := by
  induction name using resolve_object_name.induct taken with
  | case1 name h ih =>
    rw [resolve_object_name, dif_pos h]
    exact ih
  | case2 name h =>
    rw [resolve_object_name, dif_neg h]
    exact h

/-- The per-archive extraction loop of the manual merge (devkit.py lines
340-345): each member in turn gets a collision-free name which is recorded
in the taken set, and the renamed member is moved to the combined area.
Returns the renamed members and the updated taken set. -/
def add_archive_objects (taken : List String) :
    List ArMember → List ArMember × List String
  | [] => ([], taken)
  | m :: rest =>
    let n := resolve_object_name taken m.name
    let r := add_archive_objects (n :: taken) rest
    ({ name := n, content := m.content } :: r.1, r.2)

/-- The manual extract/repack merge of generate_library_unix (devkit.py
lines 332-351): for every input archive, extract it into a scratch area,
keep the members whose names end in .o, rename them on collision, and move
them to the combined area; the combined members are then repacked into the
output archive.  The taken-name set (object_names) threads through all
archives. -/
def merge_objects : List (List ArMember) → List String → List ArMember
  | [], _ => []
  | a :: rest, taken =>
    let r := add_archive_objects taken (a.filter (fun m => py_endsWith m.name ".o"))
    r.1 ++ merge_objects rest r.2

theorem add_archive_objects_contents (taken : List String) (l : List ArMember) :
    (add_archive_objects taken l).1.map ArMember.content = l.map ArMember.content := by
  induction l generalizing taken with
  | nil => rfl
  | cons m rest ih =>
    rw [add_archive_objects]
    simp only [List.map_cons]
    rw [ih]

theorem add_archive_objects_taken_mono (taken : List String) (l : List ArMember)
    (x : String) (hx : x ∈ taken) : x ∈ (add_archive_objects taken l).2 := by
  induction l generalizing taken with
  | nil => exact hx
  | cons m rest ih =>
    rw [add_archive_objects]
    exact ih _ (List.mem_cons_of_mem _ hx)

theorem add_archive_objects_names_in_taken (taken : List String) (l : List ArMember)
    (m2 : ArMember) (hm : m2 ∈ (add_archive_objects taken l).1) :
    m2.name ∈ (add_archive_objects taken l).2 := by
  induction l generalizing taken with
  | nil => cases hm
  | cons m rest ih =>
    rw [add_archive_objects] at hm ⊢
    rcases List.mem_cons.mp hm with rfl | hm2
    · exact add_archive_objects_taken_mono _ _ _ (List.mem_cons_self _ _)
    · exact ih _ hm2

theorem add_archive_objects_fresh (taken : List String) (l : List ArMember) :
    ((add_archive_objects taken l).1.map ArMember.name).Nodup ∧
    (∀ m2 ∈ (add_archive_objects taken l).1, ¬ m2.name ∈ taken) := by
  induction l generalizing taken with
  | nil => simp [add_archive_objects]
  | cons m rest ih =>
    rw [add_archive_objects]
    have hnotmem := resolve_object_name_notMem taken m.name
    have ihr := ih (resolve_object_name taken m.name :: taken)
    constructor
    · simp only [List.map_cons, List.nodup_cons]
      constructor
      · intro hc
        rcases List.mem_map.mp hc with ⟨m2, hm2, hname⟩
        exact ihr.2 m2 hm2 (hname ▸ List.mem_cons_self _ _)
      · exact ihr.1
    · intro m2 hm2
      rcases List.mem_cons.mp hm2 with rfl | hm3
      · exact hnotmem
      · exact fun hc => ihr.2 m2 hm3 (List.mem_cons_of_mem _ hc)

theorem merge_objects_contents (archives : List (List ArMember)) (taken : List String) :
    (merge_objects archives taken).map ArMember.content =
      ((archives.map (fun a => a.filter (fun m => py_endsWith m.name ".o"))).flatten).map
        ArMember.content := by
  induction archives generalizing taken with
  | nil => rfl
  | cons a rest ih =>
    rw [merge_objects]
    simp only [List.map_cons, List.flatten_cons, List.map_append]
    rw [add_archive_objects_contents, ih]

theorem merge_objects_fresh (archives : List (List ArMember)) (taken : List String) :
    ((merge_objects archives taken).map ArMember.name).Nodup ∧
    (∀ m2 ∈ merge_objects archives taken, ¬ m2.name ∈ taken) := by
  induction archives generalizing taken with
  | nil => simp [merge_objects]
  | cons a rest ih =>
    rw [merge_objects]
    have hblock := add_archive_objects_fresh taken
      (a.filter (fun m => py_endsWith m.name ".o"))
    have ihr := ih (add_archive_objects taken
      (a.filter (fun m => py_endsWith m.name ".o"))).2
    constructor
    · rw [List.map_append]
      rw [List.nodup_append]
      refine ⟨hblock.1, ihr.1, ?_⟩
      intro x hx1 hx2
      rcases List.mem_map.mp hx1 with ⟨m1, hm1, hname1⟩
      rcases List.mem_map.mp hx2 with ⟨m2, hm2, hname2⟩
      have hin := add_archive_objects_names_in_taken _ _ m1 hm1
      exact ihr.2 m2 hm2 (hname2 ▸ (hname1 ▸ hin))
    · intro m2 hm2
      rcases List.mem_append.mp hm2 with h1 | h1
      · exact hblock.2 m2 h1
      · exact fun hc => ihr.2 m2 h1 (add_archive_objects_taken_mono _ _ _ hc)

/-- The final normalization of generate_header (devkit.py line 153): the
Python replace of every carriage-return line-feed pair by a line feed, in a
single left-to-right pass over non-overlapping occurrences. -/
def crlf_to_lf : List Char → List Char
  | [] => []
  | [c] => [c]
  | c :: d :: rest =>
    if c = '\r' ∧ d = '\n' then '\n' :: crlf_to_lf rest
    else c :: crlf_to_lf (d :: rest)

/-- Whether a character sequence contains a carriage return immediately
followed by a line feed. -/
def containsCRLF : List Char → Bool
  | [] => false
  | [_] => false
  | c :: d :: rest =>
    if c = '\r' ∧ d = '\n' then true else containsCRLF (d :: rest)

/-- Whether every carriage return in the sequence is immediately followed
by a line feed (ordinary CRLF line endings, no bare or doubled CR). -/
def crAlwaysBeforeLf : List Char → Bool
  | [] => true
  | [c] => !(c == '\r')
  | c :: d :: rest =>
    if c = '\r' then (if d = '\n' then crAlwaysBeforeLf rest else false)
    else crAlwaysBeforeLf (d :: rest)

theorem crlf_to_lf_no_cr (l : List Char) (h : crAlwaysBeforeLf l = true) :
    ¬ '\r' ∈ crlf_to_lf l := by
  induction l using crlf_to_lf.induct with
  | case1 => simp [crlf_to_lf]
  | case2 c =>
    simp only [crAlwaysBeforeLf] at h
    simp only [crlf_to_lf, List.mem_singleton]
    intro hc
    rw [hc] at h
    simp at h
  | case3 c d rest hcd ih =>
    obtain ⟨rfl, rfl⟩ := hcd
    simp only [crAlwaysBeforeLf, if_pos rfl, if_pos rfl] at h
    rw [crlf_to_lf, if_pos ⟨rfl, rfl⟩]
    intro hc
    rcases List.mem_cons.mp hc with hq | hq
    · cases hq
    · exact ih h hq
  | case4 c d rest hcd ih =>
    have hcr : ¬ c = '\r' := by
      intro rfl2
      subst rfl2
      by_cases hd : d = '\n'
      · exact hcd ⟨rfl, hd⟩
      · simp [crAlwaysBeforeLf, hd] at h
    have h2 : crAlwaysBeforeLf (d :: rest) = true := by
      simp only [crAlwaysBeforeLf, if_neg hcr] at h
      exact h
    rw [crlf_to_lf, if_neg hcd]
    intro hc
    rcases List.mem_cons.mp hc with rfl | hq
    · exact hcr rfl
    · exact ih h2 hq

theorem no_cr_no_crlf (l : List Char) (h : ¬ '\r' ∈ l) : containsCRLF l = false := by
  induction l using containsCRLF.induct with
  | case1 => rfl
  | case2 c => rfl
  | case3 c d rest hcd =>
    exact absurd (hcd.1 ▸ List.mem_cons_self _ _) h
  | case4 c d rest hcd ih =>
    rw [containsCRLF, if_neg hcd]
    exact ih (fun hc => h (List.mem_cons_of_mem _ hc))

/-- Space or tab, the whitespace class of the macro-definition regex in
generate_header (devkit.py line 146). -/
def isWsChar (c : Char) : Bool :=
  c == ' ' || c == '\t'

/-- ASCII word character, the class used by the word-boundary assertions of
the macro rewriting regexes (symbol names are ASCII identifiers). -/
def isWordCharOpt : Option Char → Bool
  | none => false
  | some c => c.isAlphanum || c == '_'

/-- A regex word boundary sits between two positions whose word-character
status differs; the ends of the text count as non-word. -/
def wordBoundary (a b : Option Char) : Bool :=
  isWordCharOpt a != isWordCharOpt b

/-- The whole-word substitution performed by fixup_macro (devkit.py line
144): every occurrence of the original name delimited by word boundaries is
replaced by the renamed name; scanning resumes after each replaced
occurrence. -/
def substWord (orig renamed : List Char) : Option Char → List Char → List Char
  | _, [] => []
  | prev, c :: rest =>
    if h : orig.length = 0 then c :: substWord orig renamed (some c) rest
    else if (orig.isPrefixOf (c :: rest) && wordBoundary prev orig.head?
        && wordBoundary orig.getLast? ((c :: rest).drop orig.length).head?) = true then
      renamed ++ substWord orig renamed orig.getLast? ((c :: rest).drop orig.length)
    else c :: substWord orig renamed (some c) rest
termination_by _ l => l.length
decreasing_by
  · simp
  · have h2 : ((c :: rest).drop orig.length).length = (c :: rest).length - orig.length :=
      List.length_drop _ _
    have h3 : (c :: rest).length = rest.length + 1 := rfl
    omega

/-- Splitting a text on line feeds, keeping empty lines; inverse of joining
with a line feed between pieces. -/
def splitOnNl : List Char → List (List Char)
  | [] => [[]]
  | '\n' :: rest => [] :: splitOnNl rest
  | c :: rest =>
    match splitOnNl rest with
    | t :: ts => (c :: t) :: ts
    | [] => [[c]]

/-- The line-start prefix of the macro-definition regex of generate_header
(devkit.py line 146): optional spaces or tabs, a hash, optional spaces or
tabs, the word define, optional spaces or tabs, then the original symbol
name followed by a word boundary.  Returns the matched prefix (group one of
the regex, without the name) and the rest of the line after the name. -/
def parseDefinePre (orig : List Char) (line : List Char) : Option (List Char × List Char) :=
  if orig.isEmpty then none else
  let w1 := line.takeWhile isWsChar
  match line.dropWhile isWsChar with
  | '#' :: r2 =>
    let w2 := r2.takeWhile isWsChar
    let r3 := r2.dropWhile isWsChar
    if "define".data.isPrefixOf r3 then
      let r4 := r3.drop 6
      let w3 := r4.takeWhile isWsChar
      let r5 := r4.dropWhile isWsChar
      if orig.isPrefixOf r5 then
        let r6 := r5.drop orig.length
        if wordBoundary orig.getLast? r6.head? then
          some (w1 ++ '#' :: (w2 ++ "define".data ++ w3), r6)
        else none
      else none
    else none
  | _ => none

/-- The continuation-line part of the macro-definition regex: starting from
the rest of the matched line, greedily take every line that ends with a
backslash together with its line feed, then the following line; returns the
matched body and the remaining lines. -/
def collectChain (seg : List Char) (rest : List (List Char)) :
    List Char × List (List Char) :=
  if seg.getLast? = some '\\' then
    match rest with
    | [] => (seg, [])
    | nxt :: rest2 =>
      let r := collectChain nxt rest2
      (seg ++ '\n' :: r.1, r.2)
  else (seg, rest)

theorem collectChain_rest_le (seg : List Char) (rest : List (List Char)) :
    (collectChain seg rest).2.length ≤ rest.length := by
  induction rest generalizing seg with
  | nil =>
    rw [collectChain]
    split
    · rfl
    · rfl
  | cons nxt rest2 ih =>
    rw [collectChain]
    split
    · exact le_trans (ih nxt) (Nat.le_succ _)
    · rfl

/-- The multiline substitution of generate_header (devkit.py lines 142-146)
over the lines of the flattened header: at each line start, a match of the
macro-definition regex for the original name is replaced by an undef of the
name followed by the matched prefix, the name, and the body with every
whole-word occurrence of the name substituted by the renamed form; scanning
resumes after the match.  Unmatched lines are copied.  The result is the
rebuilt text. -/
def fixupLines (orig renamed : List Char) : List (List Char) → List Char
  | [] => []
  | line :: rest =>
    match parseDefinePre orig line with
    | some (pre, afterOrig) =>
      let br := collectChain afterOrig rest
      let repl := "#undef ".data ++ orig ++ '\n' ::
        (pre ++ orig ++ substWord orig renamed none br.1)
      if br.2.isEmpty then repl
      else repl ++ '\n' :: fixupLines orig renamed br.2
    | none =>
      if rest.isEmpty then line
      else line ++ '\n' :: fixupLines orig renamed rest
termination_by l => l.length
decreasing_by
  all_goals simp_wf
  · have h1 := collectChain_rest_le afterOrig rest2
    omega

/-- One iteration of the public-mapping loop of generate_header (devkit.py
lines 138-146): the substitution runs only when the text contains the word
define followed by one or two spaces and the original name. -/
def fixup_define (orig renamed : String) (text : String) : String :=
  if listContainsSub ("define " ++ orig).data text.data
      || listContainsSub ("define  " ++ orig).data text.data then
    String.mk (fixupLines orig.data renamed.data (splitOnNl text.data))
  else text

/-- The configuration block prepended for gum-based packages (devkit.py
lines 116-123). -/
def gum_static_config : String :=
  "#ifndef GUM_STATIC\n# define GUM_STATIC\n#endif\n\n"

/-- The include-guarded public-symbol-mapping block appended to the
configuration (devkit.py lines 148-151). -/
def mappings_block (pub : List (String × String)) : String :=
  "#ifndef __FRIDA_SYMBOL_MAPPINGS__\n" ++ "#define __FRIDA_SYMBOL_MAPPINGS__\n\n" ++
  String.intercalate "\n" (pub.map (fun om => "#define " ++ om.1 ++ " " ++ om.2)) ++
  "\n\n" ++ "#endif\n\n"

/-- The flattening phase of generate_header (devkit.py lines 104-114, unix
branch, kits without extra root headers): the umbrella header is the first
element of the dependency list, it is seeded into the processed set, and
its content is ingested.  The resulting lines are joined into one text.
The source indexes the first element directly and would fail on an empty
dependency list, which cannot occur because the preprocessor output always
names the umbrella header first. -/
def devkit_header_of (fs : String → List String) (header_files : List String) : String :=
  match header_files with
  | [] => ""
  | umbrella :: _ =>
    String.join (ingestLines fs header_files (fs umbrella) [umbrella]).1

/-- The header text assembled by generate_header (devkit.py lines 104-153,
unix branch) before the final line-ending normalization: the configuration
block (the gum static guard for gum packages), then, when the third-party
mapping list is non-empty, the public mappings are applied to the macro
definitions of the flattened text and emitted as a guarded redefinition
block between configuration and text. -/
def assemble_header_text (package : String) (fs : String → List String)
    (header_files : List String) (mappings : List (String × String)) : String :=
  let dh0 := devkit_header_of fs header_files
  let config := if py_startsWith package "frida-gum" then gum_static_config else ""
  if mappings.length > 0 then
    let pub := extract_public_thirdparty_symbol_mappings mappings
    let dh := pub.foldl (fun t om => fixup_define om.1 om.2 t) dh0
    (config ++ mappings_block pub) ++ dh
  else config ++ dh0

/-- generate_header (devkit.py lines 104-153, unix branch): the assembled
text with every carriage-return line-feed pair replaced by a line feed. -/
def generate_header (package : String) (fs : String → List String)
    (header_files : List String) (mappings : List (String × String)) : String :=
  String.mk (crlf_to_lf (assemble_header_text package fs header_files mappings).data)

/-- The semantics of the objcopy redefine-syms invocation (devkit.py lines
357-361) on the archive symbol table: every symbol equal to an original of
the rename file takes its renamed form, all others stay. -/
def apply_renames (maps : List (String × String)) (syms : List String) : List String :=
  syms.map (fun s =>
    match maps.find? (fun om => om.1 == s) with
    | some om => om.2
    | none => s)

/-- The isolation phase of generate_library_unix (devkit.py lines 353-364):
when the probed objcopy path is non-empty, the third-party mappings are
computed from the merged archive symbols and applied to the archive;
otherwise the mapping list is empty and the archive is untouched.  Returns
the archive symbol table after the phase and the mappings handed to
generate_header. -/
def isolate_archive (objcopy : String) (nm_lines : List String)
    (archive_syms : List String) : List String × List (String × String) :=
  if objcopy.length > 0 then
    let maps := get_thirdparty_symbol_mappings nm_lines
    (apply_renames maps archive_syms, maps)
  else
    (archive_syms, [])

/-- Outcome of one devkit generation: the files written to the output
directory in write order, and the raised error if any. -/
structure DevkitOutcome where
  written : List String
  error : Option String
deriving DecidableEq

/-- compute_library_filename (devkit.py lines 493-497), unix branch. -/
def compute_library_filename_unix (kit : String) : String :=
  "lib" ++ kit ++ ".a"

/-- The orchestration order of generate_devkit (devkit.py lines 31-57, unix
branch), with the external effects abstracted to the files each step writes
into the output directory: generate_library runs first and writes the
merged archive at the library path; only then is the umbrella header path
checked, and if the file is absent an exception aborts the invocation
before the header and the example are written; otherwise the header and
then the example are written. -/
def generate_devkit_model (kit : String) (umbrella_exists : Bool) : DevkitOutcome :=
  let library_filename := compute_library_filename_unix kit
  if umbrella_exists then
    { written := [library_filename, kit ++ ".h", kit ++ "-example.c"], error := none }
  else
    { written := [library_filename], error := some "Header not found" }

/-- Stated from the spec sentence of the include-resolution edge case, for
comparison with the source behaviour: the first entry whose path ends with
a slash and the included name, compared case-insensitively. -/
def asciiLower (c : Char) : Char :=
  if 'A' ≤ c ∧ c ≤ 'Z' then Char.ofNat (c.toNat + 32) else c

def lowerStr (s : String) : String :=
  String.mk (s.data.map asciiLower)

def resolveIncludeSpec (univ : List String) (name : String) : Option String :=
  univ.find? (fun u => py_endsWith (lowerStr u) ("/" ++ lowerStr name))

theorem find?_first_suffix (name : String) (univ : List String) (u : String) :
    univ.find? (fun v => py_endsWith v ("/" ++ name)) = some u ↔
      ∃ l1 l2, univ = l1 ++ u :: l2 ∧ py_endsWith u ("/" ++ name) = true ∧
        ∀ v ∈ l1, py_endsWith v ("/" ++ name) = false := by
  induction univ with
  | nil =>
    constructor
    · intro h
      simp at h
    · rintro ⟨l1, l2, heq, _, _⟩
      exact absurd heq.symm (by simp)
  | cons a t ih =>
    constructor
    · intro h
      by_cases hp : py_endsWith a ("/" ++ name) = true
      · rw [@List.find?_cons_of_pos _ (fun v => py_endsWith v ("/" ++ name)) a t hp] at h
        cases h
        exact ⟨[], t, rfl, hp, by simp⟩
      · have hp2 : py_endsWith a ("/" ++ name) = false := by
          cases hb : py_endsWith a ("/" ++ name)
          · rfl
          · exact absurd hb hp
        rw [List.find?_cons_of_neg _ (by simp [hp2])] at h
        obtain ⟨l1, l2, heq, he, hall⟩ := ih.mp h
        refine ⟨a :: l1, l2, ?_, he, ?_⟩
        · rw [List.cons_append, heq]
        · intro v hv
          rcases List.mem_cons.mp hv with rfl | hv2
          · exact hp2
          · exact hall v hv2
    · rintro ⟨l1, l2, heq, he, hall⟩
      cases l1 with
      | nil =>
        rw [List.nil_append] at heq
        rw [List.cons.injEq] at heq
        obtain ⟨rfl, rfl⟩ := heq
        rw [@List.find?_cons_of_pos _ (fun v => py_endsWith v ("/" ++ name)) a t he]
      | cons b l1t =>
        rw [List.cons_append, List.cons.injEq] at heq
        obtain ⟨rfl, rfl⟩ := heq
        have hbf : py_endsWith a ("/" ++ name) = false :=
          hall a (List.mem_cons_self _ _)
        rw [List.find?_cons_of_neg _ (by simp [hbf])]
        exact ih.mpr ⟨l1t, l2, rfl, he, fun v hv => hall v (List.mem_cons_of_mem _ hv)⟩

/-- C1: flattening inlines headers depth-first pre-order with
first-occurrence-wins deduplication.  In general, the list of headers the
flattener newly ingests has no duplicates and is disjoint from the already
processed set, so each universe header is inlined at most once; and every
include that resolves to a universe entry, whether among the pending lines
or inside any ingested header, leaves that entry ingested or already
processed, so each reachable universe header is inlined exactly once, at
its first include.  In the concrete scenario where a.h includes b.h then
c.h and b.h includes c.h, the output is the content of c.h, then the rest
of b.h, then the rest of a.h, with the second include of c.h dropped. -/
theorem flatten_no_duplication_and_scenario :
    (∀ (fs : String → List String) (univ lines processed : List String),
      ((ingestLines fs univ lines processed).2.Nodup) ∧
      (∀ u ∈ (ingestLines fs univ lines processed).2, ¬ u ∈ processed) ∧
      (∀ line ∈ lines, ∀ u, lineResolves univ line u →
        u ∈ (ingestLines fs univ lines processed).2 ∨ u ∈ processed) ∧
      (∀ h ∈ (ingestLines fs univ lines processed).2, ∀ line ∈ fs h, ∀ u,
        lineResolves univ line u →
        u ∈ (ingestLines fs univ lines processed).2 ∨ u ∈ processed)) ∧
    ingestLines fs_abc univ_abc (fs_abc "/frida/a.h") ["/frida/a.h"] =
      (["int c;\n", "int b;\n", "int a;\n"], ["/frida/b.h", "/frida/c.h"]) :=
  ⟨fun fs univ lines processed => ingest_invariant fs univ lines processed,
   ingest_abc_eval⟩

/-- Witness for C1 at the concrete scenario: the trace of newly ingested
headers is duplicate-free and the header c.h, being in that trace, was not
in the initial processed set. -/
theorem flatten_no_duplication_witness :
    (ingestLines fs_abc univ_abc (fs_abc "/frida/a.h") ["/frida/a.h"]).2.Nodup ∧
    ¬ "/frida/c.h" ∈ (["/frida/a.h"] : List String) := by
  refine ⟨(flatten_no_duplication_and_scenario.1 fs_abc univ_abc _ _).1, ?_⟩
  apply (flatten_no_duplication_and_scenario.1 fs_abc univ_abc
    (fs_abc "/frida/a.h") ["/frida/a.h"]).2.1 "/frida/c.h"
  rw [flatten_no_duplication_and_scenario.2]
  decide

/-- C2 counterexample: the manual merge repacks only members whose names
end in .o (devkit.py line 340), so an archive member named notes.txt is
silently dropped and its content does not reach the merged archive,
contrary to the claim that no member is ever dropped. -/
theorem merge_drops_non_object_member :
    merge_objects [[{ name := "notes.txt", content := "payload" }]] [] = [] ∧
    ¬ "payload" ∈ (merge_objects [[{ name := "notes.txt", content := "payload" }]] []).map
      ArMember.content := by
  exact ⟨rfl, by decide⟩

/-- C2 amended: for input archives all of whose members are object files
(names ending in .o), the merged archive holds exactly the members of all
inputs, content for content and in order, with no member dropped, and every
member name in the merged archive is unique, collisions having been
resolved by prepending underscores until unique. -/
theorem merge_union_of_object_members (archives : List (List ArMember))
    (h : ∀ a ∈ archives, ∀ m ∈ a, py_endsWith m.name ".o" = true) :
    (merge_objects archives []).map ArMember.content =
      archives.flatten.map ArMember.content ∧
    ((merge_objects archives []).map ArMember.name).Nodup := by
  constructor
  · rw [merge_objects_contents]
    have hfix : archives.map (fun a => a.filter (fun m => py_endsWith m.name ".o")) =
        archives.map id := by
      apply List.map_congr_left
      intro a ha
      exact List.filter_eq_self.mpr (fun m hm => h a ha m hm)
    rw [hfix, List.map_id]
  · exact (merge_objects_fresh archives []).1

/-- Two archives with an object-name collision, the witness input for the
amended merge claim. -/
def colliding_archives : List (List ArMember) :=
  [[{ name := "a.o", content := "A" }, { name := "b.o", content := "B" }],
   [{ name := "a.o", content := "C" }]]

/-- Witness for C2 amended: two archives with an object-name collision; the
merge keeps all three contents and produces pairwise distinct names. -/
theorem merge_union_of_object_members_witness :
    (∀ a ∈ colliding_archives, ∀ m ∈ a, py_endsWith m.name ".o" = true) ∧
    ((merge_objects colliding_archives []).map ArMember.content =
      colliding_archives.flatten.map ArMember.content ∧
     ((merge_objects colliding_archives []).map ArMember.name).Nodup) := by
  have hh : ∀ a ∈ colliding_archives, ∀ m ∈ a, py_endsWith m.name ".o" = true := by
    decide
  exact ⟨hh, merge_union_of_object_members colliding_archives hh⟩

/-- C3: a symbol whose name starts with one of the product's own four
patterns (frida, underscore frida, gum, underscore gum) never appears as an
original key of the rename mapping. -/
theorem own_symbol_exclusion (nm_lines : List String) (name : String)
    (h : ∃ p ∈ frida_prefixes, py_startsWith name p = true) :
    ¬ name ∈ (get_thirdparty_symbol_mappings nm_lines).map Prod.fst := by
  intro hmem
  rw [get_thirdparty_symbol_mappings] at hmem
  rcases List.mem_map.mp hmem with ⟨om, hom, hfst⟩
  rcases List.mem_map.mp hom with ⟨n, hn, rfl⟩
  rcases List.mem_filter.mp (by
    rw [get_thirdparty_symbol_names] at hn
    exact hn) with ⟨_, hkeep⟩
  rcases h with ⟨p, hp, hs⟩
  have hany : frida_prefixes.any (fun q => py_startsWith name q) = true :=
    List.any_eq_true.mpr ⟨p, hp, hs⟩
  rw [← hfst] at hany
  simp [hany] at hkeep

/-- Witness for C3: the name gum_init carries the gum pattern and indeed is
not an original key of the mapping computed from a symbol table holding it
next to a third-party name. -/
theorem own_symbol_exclusion_witness :
    (∃ p ∈ frida_prefixes, py_startsWith "gum_init" p = true) ∧
    ¬ "gum_init" ∈ (get_thirdparty_symbol_mappings
      ["0000 T gum_init", "0000 T g_free"]).map Prod.fst := by
  have hh : ∃ p ∈ frida_prefixes, py_startsWith "gum_init" p = true := by decide
  exact ⟨hh, own_symbol_exclusion _ _ hh⟩

/-- C4: the mapping computation is idempotent.  On a symbol table in which
every visible name either carries one of the product's own patterns or
already carries the rename pattern, the computed mapping is empty, so a
second rename pass is a no-op and no symbol receives the pattern twice. -/
theorem rename_mapping_idempotent (nm_lines : List String)
    (h : ∀ kn ∈ get_symbols nm_lines, kn.1 ∈ visible_kinds →
      (frida_prefixes.any (fun p => py_startsWith kn.2 p) = true ∨
        py_startsWith kn.2 "_frida_" = true)) :
    get_thirdparty_symbol_mappings nm_lines = [] := by
  rw [get_thirdparty_symbol_mappings]
  rw [List.map_eq_nil_iff]
  rw [get_thirdparty_symbol_names]
  rw [List.filter_eq_nil_iff]
  intro n hn
  rw [mem_sortStrings, List.mem_dedup] at hn
  rcases List.mem_map.mp hn with ⟨kn, hkn, rfl⟩
  rcases List.mem_filter.mp hkn with ⟨hg, hv⟩
  have hv2 : kn.1 ∈ visible_kinds := of_decide_eq_true hv
  have hany : frida_prefixes.any (fun p => py_startsWith kn.2 p) = true := by
    rcases h kn hg hv2 with hc | hc
    · exact hc
    · have hc2 : py_startsWith kn.2 "_frida" = true :=
        py_startsWith_of_longer kn.2 "_frida" "_frida_" ⟨['_'], rfl⟩ hc
      exact List.any_eq_true.mpr ⟨"_frida", by decide, hc2⟩
  simp [hany]

/-- Witness for C4: a table whose visible names are an own gum name and an
already renamed third-party name (the undefined strlen is not visible)
yields the empty mapping. -/
theorem rename_mapping_idempotent_witness :
    (∀ kn ∈ get_symbols ["0 T _frida_g_free", "0 T gum_init", "0 U strlen"],
      kn.1 ∈ visible_kinds →
      (frida_prefixes.any (fun p => py_startsWith kn.2 p) = true ∨
        py_startsWith kn.2 "_frida_" = true)) ∧
    get_thirdparty_symbol_mappings ["0 T _frida_g_free", "0 T gum_init", "0 U strlen"]
      = [] := by
  have hh : ∀ kn ∈ get_symbols ["0 T _frida_g_free", "0 T gum_init", "0 U strlen"],
      kn.1 ∈ visible_kinds →
      (frida_prefixes.any (fun p => py_startsWith kn.2 p) = true ∨
        py_startsWith kn.2 "_frida_" = true) := by decide
  exact ⟨hh, rename_mapping_idempotent _ hh⟩

/-- C5: a pair is in the public mapping subset exactly when it is in the
rename mapping and its original starts with one of the fixed allow-list
patterns; concretely, a defined code symbol g_object_new is mapped to
_frida_g_object_new and, matching the g underscore pattern, that pair is in
the public subset. -/
theorem public_mapping_subset_characterization :
    (∀ (mappings : List (String × String)) (om : String × String),
      om ∈ extract_public_thirdparty_symbol_mappings mappings ↔
        (om ∈ mappings ∧ public_prefixes.any (fun p => py_startsWith om.1 p) = true)) ∧
    get_thirdparty_symbol_mappings ["0000000000000000 T g_object_new"] =
      [("g_object_new", "_frida_g_object_new")] ∧
    ("g_object_new", "_frida_g_object_new") ∈
      extract_public_thirdparty_symbol_mappings
        (get_thirdparty_symbol_mappings ["0000000000000000 T g_object_new"]) := by
  refine ⟨?_, by decide, by decide⟩
  intro mappings om
  rw [extract_public_thirdparty_symbol_mappings]
  exact List.mem_filter

/-- Witness for C5: the characterization applied at the concrete mapping of
g_object_new. -/
theorem public_mapping_subset_witness :
    ("g_object_new", "_frida_g_object_new") ∈
      extract_public_thirdparty_symbol_mappings
        [("g_object_new", "_frida_g_object_new")] :=
  (public_mapping_subset_characterization.1 _ _).mpr ⟨by decide, by decide⟩

/-- C6 counterexample: the claim says suffix matching is case-insensitive,
but the source compares with the case-sensitive Python endswith.  The
universe entry ending in B.h is a case-insensitive suffix match for the
included name b.h, as the spec-side resolution confirms, yet the source
resolution finds nothing. -/
theorem include_resolution_case_cx :
    py_endsWith (lowerStr "/frida/B.h") ("/" ++ lowerStr "b.h") = true ∧
    resolveIncludeSpec ["/frida/B.h"] "b.h" = some "/frida/B.h" ∧
    resolveInclude ["/frida/B.h"] "b.h" = none := by
  exact ⟨by decide, by decide, by decide⟩

/-- C6 amended: resolution picks the first entry in dependency-universe
order whose path ends with a slash followed by the included name, compared
case-sensitively. -/
theorem include_resolution_first_suffix (univ : List String) (name u : String) :
    resolveInclude univ name = some u ↔
      ∃ l1 l2, univ = l1 ++ u :: l2 ∧ py_endsWith u ("/" ++ name) = true ∧
        ∀ v ∈ l1, py_endsWith v ("/" ++ name) = false := by
  rw [resolveInclude]
  exact find?_first_suffix name univ u

/-- Witness for C6 amended: among two exact-suffix candidates the earlier
one wins, and a non-matching entry before them is skipped. -/
theorem include_resolution_first_suffix_witness :
    resolveInclude ["/frida/x.h", "/dir/b.h", "/other/b.h"] "b.h" = some "/dir/b.h" :=
  (include_resolution_first_suffix ["/frida/x.h", "/dir/b.h", "/other/b.h"]
      "b.h" "/dir/b.h").mpr
    ⟨["/frida/x.h"], ["/other/b.h"], rfl, by decide, by decide⟩

/-- C7: an include directive whose name matches no universe entry stays
verbatim at its original position, and non-include lines are copied
verbatim: when every line of the input either is no include or resolves to
nothing, the flattener returns exactly the input lines and ingests
nothing. -/
theorem unresolved_includes_preserved (fs : String → List String)
    (univ lines processed : List String)
    (h : ∀ line ∈ lines, ∀ nm, parseIncludeChars line.data = some nm →
      resolveInclude univ (String.mk nm) = none) :
    ingestLines fs univ lines processed = (lines, []) :=
  ingest_verbatim fs univ lines processed h

/-- Witness for C7: a header consisting of a system include not in the
universe and a plain declaration passes through unchanged. -/
theorem unresolved_includes_preserved_witness :
    (∀ line ∈ ["#include <stdio.h>\n", "typedef int x;\n"], ∀ nm,
      parseIncludeChars line.data = some nm →
      resolveInclude ["/frida/gum.h"] (String.mk nm) = none) ∧
    ingestLines (fun _ => []) ["/frida/gum.h"]
      ["#include <stdio.h>\n", "typedef int x;\n"] [] =
      (["#include <stdio.h>\n", "typedef int x;\n"], []) := by
  have hh : ∀ line ∈ ["#include <stdio.h>\n", "typedef int x;\n"], ∀ nm,
      parseIncludeChars line.data = some nm →
      resolveInclude ["/frida/gum.h"] (String.mk nm) = none := by
    intro line hl nm hnm
    rcases List.mem_cons.mp hl with rfl | hl2
    · have he : parseIncludeChars ("#include <stdio.h>\n").data =
          some "stdio.h".data := by decide
      rw [he] at hnm
      injection hnm with h3
      subst h3
      decide
    · rcases List.mem_cons.mp hl2 with rfl | hl3
      · have he : parseIncludeChars ("typedef int x;\n").data = none := by decide
        rw [he] at hnm
        cases hnm
      · cases hl3
  exact ⟨hh, unresolved_includes_preserved _ _ _ _ hh⟩

/-- C8 counterexample: with the umbrella header absent the invocation
raises, but the merged library has already been written into the output
directory before the check, contrary to the claim that no output is
produced. -/
theorem missing_umbrella_writes_library_cx :
    (generate_devkit_model "frida-gum" false).error = some "Header not found" ∧
    (generate_devkit_model "frida-gum" false).written = ["libfrida-gum.a"] ∧
    ¬ (generate_devkit_model "frida-gum" false).written = [] := by
  exact ⟨rfl, rfl, by decide⟩

/-- C8 amended: when the umbrella header is absent the invocation raises
and aborts before the header and the example are written, but after the
merged library has been written, so exactly the library file is in the
output directory. -/
theorem missing_umbrella_aborts_after_library (kit : String) :
    (generate_devkit_model kit false).error = some "Header not found" ∧
    (generate_devkit_model kit false).written = [compute_library_filename_unix kit] ∧
    ¬ (kit ++ ".h") ∈ (generate_devkit_model kit false).written ∧
    ¬ (kit ++ "-example.c") ∈ (generate_devkit_model kit false).written := by
  have hlib : "lib".length = 3 := rfl
  have hh : ".h".length = 1 + 1 := rfl
  have ha : ".a".length = 2 := rfl
  have hex : "-example.c".length = 10 := rfl
  refine ⟨rfl, rfl, ?_, ?_⟩
  · intro hm
    simp [generate_devkit_model, compute_library_filename_unix] at hm
    have h1 := congrArg String.length hm
    rw [String.length_append, String.length_append, String.length_append] at h1
    omega
  · intro hm
    simp [generate_devkit_model, compute_library_filename_unix] at hm
    have h1 := congrArg String.length hm
    rw [String.length_append, String.length_append, String.length_append] at h1
    omega

/-- C9: with the symbol-redefine tool unavailable (empty probed path), the
isolation phase returns the archive symbols untouched together with an
empty mapping, and the generated header is exactly the configuration block
followed by the flattened text, normalized: no redefinition block and no
macro rewriting.  The model is total, so no error arises on this path. -/
theorem degraded_isolation_no_rename (package : String) (fs : String → List String)
    (header_files : List String) (nm_lines : List String)
    (archive_syms : List String) :
    isolate_archive "" nm_lines archive_syms = (archive_syms, []) ∧
    generate_header package fs header_files
        (isolate_archive "" nm_lines archive_syms).2 =
      String.mk (crlf_to_lf
        ((if py_startsWith package "frida-gum" then gum_static_config else "") ++
          devkit_header_of fs header_files).data) := by
  exact ⟨rfl, rfl⟩

/-- C10 counterexample: the final replace runs once, left to right, so the
assembled text consisting of carriage return, carriage return, line feed
becomes carriage return, line feed, which still contains the sequence the
claim says is always eliminated. -/
theorem crlf_normalization_cx :
    containsCRLF (generate_header "frida-core-1.0" (fun _ => ["\r\r\n"])
      ["/frida/a.h"] []).data = true := by
  have hdh : devkit_header_of (fun _ => ["\r\r\n"]) ["/frida/a.h"] = "\r\r\n" := by
    show String.join (ingestLines (fun _ => ["\r\r\n"]) ["/frida/a.h"]
      ["\r\r\n"] ["/frida/a.h"]).1 = "\r\r\n"
    rw [ingestLines_cons_plain _ _ _ _ _ (by decide), ingestLines_nil]
    rfl
  have ha : assemble_header_text "frida-core-1.0" (fun _ => ["\r\r\n"])
      ["/frida/a.h"] [] = "\r\r\n" := by
    simp only [assemble_header_text, hdh]
    decide
  show containsCRLF (String.mk (crlf_to_lf (assemble_header_text "frida-core-1.0"
    (fun _ => ["\r\r\n"]) ["/frida/a.h"] []).data)).data = true
  rw [ha]
  decide

/-- C10 amended: the replace is a single left-to-right pass over
non-overlapping occurrences; whenever every carriage return of the
assembled text is immediately followed by a line feed (ordinary CRLF line
endings, the case the claim describes), the final header contains no
carriage-return line-feed sequence. -/
theorem crlf_normalization_single_pass (package : String) (fs : String → List String)
    (header_files : List String) (mappings : List (String × String))
    (h : crAlwaysBeforeLf (assemble_header_text package fs header_files
      mappings).data = true) :
    containsCRLF (generate_header package fs header_files mappings).data = false := by
  have h2 := crlf_to_lf_no_cr _ h
  have h3 : (generate_header package fs header_files mappings).data =
      crlf_to_lf (assemble_header_text package fs header_files mappings).data := rfl
  rw [h3]
  exact no_cr_no_crlf _ h2

/-- Witness for C10 amended: a header with one CRLF-terminated line yields
a final text free of carriage-return line-feed pairs. -/
theorem crlf_normalization_single_pass_witness :
    crAlwaysBeforeLf (assemble_header_text "frida-core-1.0" (fun _ => ["hi\r\n"])
      ["/frida/a.h"] []).data = true ∧
    containsCRLF (generate_header "frida-core-1.0" (fun _ => ["hi\r\n"])
      ["/frida/a.h"] []).data = false := by
  have hdh : devkit_header_of (fun _ => ["hi\r\n"]) ["/frida/a.h"] = "hi\r\n" := by
    show String.join (ingestLines (fun _ => ["hi\r\n"]) ["/frida/a.h"]
      ["hi\r\n"] ["/frida/a.h"]).1 = "hi\r\n"
    rw [ingestLines_cons_plain _ _ _ _ _ (by decide), ingestLines_nil]
    rfl
  have ha : assemble_header_text "frida-core-1.0" (fun _ => ["hi\r\n"])
      ["/frida/a.h"] [] = "hi\r\n" := by
    simp only [assemble_header_text, hdh]
    decide
  constructor
  · rw [ha]
    decide
  · exact crlf_normalization_single_pass "frida-core-1.0" (fun _ => ["hi\r\n"])
      ["/frida/a.h"] [] (by rw [ha]; decide)
